import Mathlib

/-
  Verification model of the aika time-series dataset-graph and task framework
  (libraries aika.time, aika.datagraph, aika.putki).  The Python sources of
  these libraries are not shipped in this snapshot of the repository: only the
  documentation (introduction.md, the library README files) and the example
  notebooks that call the libraries are present.  Every definition below is
  therefore modelled from the specification and the documentation, as noted in
  its doc comment.  Timestamps are modelled as integers (absolute instants,
  e.g. minutes since an epoch); payload rows are pairs of a timestamp and an
  integer value standing in for arbitrary row data.
-/

set_option autoImplicit false

namespace Aika

/-- Modelled from the spec: a Timestamp is a timezone-qualified instant with
equality and order on the absolute instant; we model instants as integers
(minutes since an epoch). -/
abbrev Timestamp := Int

/-- Modelled from the spec: a payload row, a timestamp together with an opaque
value (modelled as an integer). -/
abbrev Row := Int × Int

/-- Modelled from the spec: TimeRange is a half-open interval of timestamps.
The source field named end is a Lean keyword, so it is called end_ here. -/
structure TimeRange where
  start : Timestamp
  end_ : Timestamp
  deriving Repr, DecidableEq

/-- Modelled from the spec: the extent of a stored index, described by its
first and last entries (both inclusive).  Completion checkers inspect only
this summary of the existing data. -/
structure IndexRange where
  first : Timestamp
  last : Timestamp
  deriving Repr, DecidableEq

/-- The index of a payload: the list of its row timestamps in stored order. -/
def rowIndex (rows : List Row) : List Int :=
  rows.map Prod.fst

/-- First timestamp of a payload, if any. -/
def firstIdx (rows : List Row) : Option Int :=
  (rowIndex rows).head?

/-- Last timestamp of a payload, if any. -/
def lastIdx (rows : List Row) : Option Int :=
  (rowIndex rows).getLast?

/-- Index extent of a payload, if the payload is non-empty. -/
def idxRange (rows : List Row) : Option IndexRange :=
  match firstIdx rows, lastIdx rows with
  | some a, some b => some ⟨a, b⟩
  | _, _ => none

/-- A payload index is well formed when it is strictly increasing. -/
abbrev strictIndex (rows : List Row) : Prop :=
  List.Chain' (fun a b => a < b) (rowIndex rows)

/-- Modelled from the spec: the identity fields of a DataSetMetadata other
than its predecessors: name, version, the static flag, the (already
canonicalised) parameters, and the identifier of the owning persistence
engine. -/
structure MetaCore where
  name : String
  version : String
  static : Bool
  params : List (String × String)
  engineId : Nat
  deriving Repr, DecidableEq

/-- Modelled from the spec: DataSetMetadata / DataSetMetadataStub as a tagged
variant.  A full metadata carries its predecessors by value; a stub has the
same identity fields but its predecessors are themselves only stubs, fetched
lazily from the engine.  Predecessors are keyed by parameter name. -/
inductive Metadata where
  | full (core : MetaCore) (preds : List (String × Metadata))
  | stub (core : MetaCore) (preds : List (String × Metadata))

/-- Identity fields of a metadata, common to the full and stub variants. -/
def Metadata.core : Metadata → MetaCore
  | .full c _ => c
  | .stub c _ => c

/-- Token list of the non-recursive identity fields. -/
def coreTokens (c : MetaCore) : List String :=
  c.name :: c.version :: (cond c.static "s" "t") :: toString c.engineId ::
    (c.params.map (fun kv => kv.1 ++ "=" ++ kv.2))

mutual

/-- Modelled from the spec: the canonical serialisation underlying the
content hash of a metadata.  The digest function itself is injective on
serialisations, so the hash is modelled by the serialisation: a token list
over the identity fields and, recursively, the predecessors.  The full/stub
tag is not serialised, which is what makes a stub hash-equal to the full
metadata it refers to.  Parameters and predecessors are serialised in stored
order; the construction-time canonicalisation (key sorting) is assumed to
have happened already. -/
def mserial : Metadata → List String
  | .full c ps => coreTokens c ++ "(" :: pserial ps ++ [")"]
  | .stub c ps => coreTokens c ++ "(" :: pserial ps ++ [")"]

/-- Serialisation of a keyed predecessor list. -/
def pserial : List (String × Metadata) → List String
  | [] => []
  | (k, m) :: rest => k :: mserial m ++ pserial rest

end

/-- Modelled from the spec: the stable content hash of a metadata, modelled
as its canonical serialisation (the digest is injective). -/
def mhash (m : Metadata) : List String :=
  mserial m

mutual

/-- Modelled from the spec: get_stub converts a metadata into its stub form,
the variant whose predecessors are themselves only stubs. -/
def Metadata.toStub : Metadata → Metadata
  | .full c ps => .stub c (stubPreds ps)
  | .stub c ps => .stub c (stubPreds ps)

/-- Stub conversion of a keyed predecessor list. -/
def stubPreds : List (String × Metadata) → List (String × Metadata)
  | [] => []
  | (k, m) :: rest => (k, Metadata.toStub m) :: stubPreds rest

end

/-- Modelled from the spec: the calendar interface is consumed as an ordered
collection of event instants; we model a calendar by the finite list of its
event timestamps inside the window of interest. -/
abbrev Calendar := List Timestamp

/-- Largest element of a calendar that is at most the given bound, the model
of calendar last_on_or_before. -/
def lastOnOrBefore : Calendar → Timestamp → Option Timestamp
  | [], _ => none
  | i :: rest, bound =>
    let r := lastOnOrBefore rest bound
    if i ≤ bound then
      match r with
      | none => some i
      | some m => some (max i m)
    else r

/-- Modelled from the spec: the two combination strategies of a
CompositeChecker. -/
inductive Strategy where
  | strictest
  | laxest
  deriving Repr, DecidableEq

/-- Modelled from the spec: the CompletionChecker variants of aika.putki:
CalendarChecker over a calendar, IrregularChecker, and CompositeChecker
combining a list of child checkers under a strategy. -/
inductive CompletionChecker where
  | calendar (cal : Calendar)
  | irregular
  | composite (s : Strategy) (children : List CompletionChecker)

/-- Minimum of two optional timestamps, treating absence as no constraint. -/
def omin : Option Timestamp → Option Timestamp → Option Timestamp
  | none, b => b
  | some a, none => some a
  | some a, some b => some (min a b)

/-- Maximum of two optional timestamps, treating absence as no constraint. -/
def omax : Option Timestamp → Option Timestamp → Option Timestamp
  | none, b => b
  | some a, none => some a
  | some a, some b => some (max a b)

mutual

/-- Modelled from the spec: expected_last.  For a CalendarChecker it is the
largest calendar instant at most the end of the target range; an
IrregularChecker expects no specific instant; a strictest composite takes the
minimum over its children and a laxest composite the maximum. -/
def expected_last : CompletionChecker → TimeRange → Option Timestamp
  | .calendar cal, t => lastOnOrBefore cal t.end_
  | .irregular, _ => none
  | .composite .strictest cs, t => minExpected cs t
  | .composite .laxest cs, t => maxExpected cs t

/-- Minimum of the children's expected_last values. -/
def minExpected : List CompletionChecker → TimeRange → Option Timestamp
  | [], _ => none
  | c :: rest, t => omin (expected_last c t) (minExpected rest t)

/-- Maximum of the children's expected_last values. -/
def maxExpected : List CompletionChecker → TimeRange → Option Timestamp
  | [], _ => none
  | c :: rest, t => omax (expected_last c t) (maxExpected rest t)

end

mutual

/-- Modelled from the spec: is_complete.  A CalendarChecker is complete iff
the last existing entry is at least the expected last instant (and a checker
never succeeds on an absent payload, while no expected instant means no
constraint); an IrregularChecker is complete iff some existing data overlaps
the target; a strictest composite requires every child to be complete and a
laxest composite some child. -/
def is_complete : CompletionChecker → TimeRange → Option IndexRange → Bool
  | .calendar cal, t, e =>
    match e, lastOnOrBefore cal t.end_ with
    | some er, some x => decide (x ≤ er.last)
    | some _, none => true
    | none, _ => false
  | .irregular, t, e =>
    match e with
    | some er => decide (er.first < t.end_) && decide (t.start ≤ er.last)
    | none => false
  | .composite .strictest cs, t, e => allComplete cs t e
  | .composite .laxest cs, t, e => anyComplete cs t e

/-- Every child checker is complete. -/
def allComplete : List CompletionChecker → TimeRange → Option IndexRange → Bool
  | [], _, _ => true
  | c :: rest, t, e => is_complete c t e && allComplete rest t e

/-- Some child checker is complete. -/
def anyComplete : List CompletionChecker → TimeRange → Option IndexRange → Bool
  | [], _, _ => false
  | c :: rest, t, e => is_complete c t e || anyComplete rest t e

end

/-- Modelled from the spec: one stored dataset of a persistence engine, its
full metadata together with its payload rows. -/
structure StoredDataSet where
  meta : Metadata
  rows : List Row

/-- Modelled from the spec: the state of a hash-backed persistence engine, a
mapping from metadata hash to the stored dataset, modelled as an association
list keyed by the content hash of the metadata. -/
abbrev EngineState := List StoredDataSet

/-- Modelled from the spec: the structured error codes of the persistence
contract. -/
inductive EngineError where
  | notFound
  | appendOverlap
  deriving Repr, DecidableEq

/-- Engine lookup of the payload stored under a metadata, keyed by hash. -/
def lookupRows (st : EngineState) (m : Metadata) : Option (List Row) :=
  (st.find? (fun d => decide (mhash d.meta = mhash m))).map (fun d => d.rows)

/-- Modelled from the spec: the engine operation exists, a pure observation
of whether a dataset is stored under the metadata. -/
def dsExists (st : EngineState) (m : Metadata) : Bool :=
  (st.find? (fun d => decide (mhash d.meta = mhash m))).isSome

/-- Modelled from the spec: the engine operation get_stub, returning the stub
form of the stored metadata whose hash equals the query. -/
def getStub (st : EngineState) (m : Metadata) : Option Metadata :=
  (st.find? (fun d => decide (mhash d.meta = mhash m))).map
    (fun d => Metadata.toStub d.meta)

/-- Store a payload under a metadata, replacing any dataset with the same
hash. -/
def storeRows (st : EngineState) (m : Metadata) (rows : List Row) : EngineState :=
  ⟨m, rows⟩ :: st.filter (fun d => !(decide (mhash d.meta = mhash m)))

/-- Modelled from the spec: the engine operation append.  A first write
creates the dataset; appending an empty payload is a no-op; otherwise the
smallest new index must be strictly greater than the largest existing one,
and violation is the hard AppendOverlap error, never a silent merge. -/
def engineAppend (st : EngineState) (m : Metadata) (new : List Row) :
    Except EngineError EngineState :=
  match lookupRows st m with
  | none => .ok (storeRows st m new)
  | some old =>
    match lastIdx old with
    | none => .ok (storeRows st m new)
    | some b =>
      match firstIdx new with
      | none => .ok st
      | some a =>
        if a ≤ b then .error .appendOverlap
        else .ok (storeRows st m (old ++ new))

/-- Modelled from the spec: merge is combine-first, the existing rows win on
overlapping timestamps and new rows are kept otherwise. -/
def mergeRows (old new : List Row) : List Row :=
  old ++ new.filter (fun r => !((rowIndex old).contains r.1))

/-- Rows of a payload restricted to a half-open time range, the engine read
with a range argument. -/
def restrictRows (rows : List Row) (t : TimeRange) : List Row :=
  rows.filter (fun r => decide (t.start ≤ r.1) && decide (r.1 < t.end_))

/-- Index extent of the payload stored under a metadata, the engine operation
range. -/
def storedRange (st : EngineState) (m : Metadata) : Option IndexRange :=
  match lookupRows st m with
  | some rows => idxRange rows
  | none => none

/-- Modelled from the spec: the collection of persistence engines in play,
keyed by engine identity; engines are compared by identity, never by
content. -/
structure World where
  engines : List (Nat × EngineState)

/-- The state of the engine with the given identity (a fresh engine is
empty). -/
def World.get (w : World) (eid : Nat) : EngineState :=
  ((w.engines.find? (fun p => decide (p.1 = eid))).map (fun p => p.2)).getD []

/-- Replace the state of the engine with the given identity. -/
def World.set (w : World) (eid : Nat) (st : EngineState) : World :=
  ⟨(eid, st) :: w.engines.filter (fun p => !(decide (p.1 = eid)))⟩

/-- Modelled from the spec: a Dependency, the edge wrapper of aika.putki on a
parent task, carrying the parent's output metadata and completion checker
together with the lookback duration and the completion-inheritance flag. -/
structure Dependency where
  parentMeta : Metadata
  parentChecker : CompletionChecker
  lookback : Int
  inherit_frequency : Bool

/-- Modelled from the spec: the fetch-range function of a dependency, the
child target extended backward by the lookback. -/
def fetch_range (d : Dependency) (childTarget : TimeRange) : TimeRange :=
  ⟨childTarget.start - d.lookback, childTarget.end_⟩

/-- The checkers contributed by the dependencies whose inherit_frequency
flag is set. -/
def inheritedCheckers (deps : List (String × Dependency)) : List CompletionChecker :=
  (deps.filter (fun kd => kd.2.inherit_frequency)).map (fun kd => kd.2.parentChecker)

/-- Modelled from the spec: the default completion checker derivation.
Collect the checkers of the dependencies with inherit_frequency true; with
none the default is IrregularChecker, with exactly one that checker is used
directly, and with more than one they are wrapped in a strictest
CompositeChecker. -/
def deriveChecker (deps : List (String × Dependency)) : CompletionChecker :=
  match inheritedCheckers deps with
  | [] => .irregular
  | [c] => c
  | c1 :: c2 :: rest => .composite .strictest (c1 :: c2 :: rest)

/-- Modelled from the spec: the structured result of running a task. -/
inductive RunStatus where
  | success
  | alreadyComplete
  | incomplete
  deriving Repr, DecidableEq

/-- Modelled from the spec: a Task of aika.putki, a node of the runtime
graph: the user function, identity data, keyed dependencies, the target
range, the completion checker and the owning engine identity.  The user
function receives the fetched dependency payloads and the window it must
produce. -/
structure Task where
  name : String
  version : String
  static : Bool
  params : List (String × String)
  deps : List (String × Dependency)
  target : TimeRange
  checker : CompletionChecker
  engineId : Nat
  func : List (List Row) → TimeRange → List Row

/-- Modelled from the spec: the output metadata of a task, computed at
construction: the identity fields together with the dependencies' metadata
as keyed predecessors. -/
def Task.output (t : Task) : Metadata :=
  .full ⟨t.name, t.version, t.static, t.params, t.engineId⟩
    (t.deps.map (fun kd => (kd.1, kd.2.parentMeta)))

/-- Modelled from the spec: task completeness, the checker applied to the
target range and the stored extent of the output in the owning engine. -/
def Task.complete (t : Task) (w : World) : Bool :=
  is_complete t.checker t.target (storedRange (w.get t.engineId) t.output)

/-- Modelled from the spec: the missing range of a run, from the end of the
existing payload to the end of the target when the existing payload reaches
into the target, and the whole target range otherwise. -/
def missingRange (target : TimeRange) (e : Option IndexRange) : TimeRange :=
  match e with
  | some er =>
    if target.start ≤ er.last ∧ er.last < target.end_ then ⟨er.last, target.end_⟩
    else target
  | none => target

/-- Modelled from the spec: fetching one dependency for a run: the payload is
read from the engine owning the parent metadata (engine follows the
metadata, not the task that references it), restricted to the dependency's
fetch range for the missing window. -/
def fetchDep (w : World) (d : Dependency) (missing : TimeRange) : List Row :=
  restrictRows ((lookupRows (w.get d.parentMeta.core.engineId) d.parentMeta).getD [])
    (fetch_range d missing)

/-- Modelled from the spec: write of a run result.  A static node always
replaces; a time-series result is appended when it strictly extends the
existing payload and merged otherwise; a first write stores the rows. -/
def writeResult (st : EngineState) (m : Metadata) (static : Bool)
    (new : List Row) : EngineState :=
  if static then storeRows st m new
  else
    match lookupRows st m with
    | none => storeRows st m new
    | some old =>
      match lastIdx old, firstIdx new with
      | some b, some a =>
        if b < a then storeRows st m (old ++ new)
        else storeRows st m (mergeRows old new)
      | _, _ => storeRows st m (mergeRows old new)

/-- Modelled from the spec: run.  Idempotent: an already-complete task
returns immediately with no engine write.  Otherwise the missing range is
computed, each dependency is fetched over its fetch range, the user function
is invoked, and its result is written to the owning engine; the write stands
even when the produced payload still fails the completion check, in which
case the run reports incomplete. -/
def Task.run (t : Task) (w : World) : RunStatus × World :=
  if t.complete w then (.alreadyComplete, w)
  else
    let st := w.get t.engineId
    let missing := missingRange t.target (storedRange st t.output)
    let inputs := t.deps.map (fun kd => fetchDep w kd.2 missing)
    let newRows := t.func inputs missing
    let st2 := writeResult st t.output t.static newRows
    let w2 := w.set t.engineId st2
    let status :=
      if is_complete t.checker t.target (storedRange st2 t.output) then
        RunStatus.success
      else RunStatus.incomplete
    (status, w2)

/-- Modelled from the spec: read, the stored payload of the output restricted
to the target range. -/
def Task.read (t : Task) (w : World) : Option (List Row) :=
  (lookupRows (w.get t.engineId) t.output).map (fun rows => restrictRows rows t.target)

/-- Modelled from the spec: the defaults carried by a Context: code version,
default persistence engine and default target range. -/
structure Defaults where
  version : String
  engineId : Nat
  timeRange : TimeRange

/-- Modelled from the spec: the time_series_task factory of a GraphContext.
Optional arguments fall back to the context defaults: the completion checker
to the derivation rule over the dependencies, the persistence engine and the
target range to the context's defaults. -/
def Defaults.time_series_task (ctx : Defaults) (name : String)
    (func : List (List Row) → TimeRange → List Row)
    (params : List (String × String)) (deps : List (String × Dependency))
    (checkerArg : Option CompletionChecker) (engineArg : Option Nat)
    (targetArg : Option TimeRange) : Task :=
  { name := name
    version := ctx.version
    static := false
    params := params
    deps := deps
    target := targetArg.getD ctx.timeRange
    checker := checkerArg.getD (deriveChecker deps)
    engineId := engineArg.getD ctx.engineId
    func := func }

/-- Modelled from the spec and the MACD notebook: the static_task factory of
a GraphContext; a static node has no target range of its own and its write
is always a replace.  The notebook's describe_three shows that a static task
built without an explicit engine is bound to its dependency's engine rather
than the context default, so the engine falls back to the first dependency's
engine and only then to the context default. -/
def Defaults.static_task (ctx : Defaults) (name : String)
    (func : List (List Row) → TimeRange → List Row)
    (params : List (String × String)) (deps : List (String × Dependency))
    (engineArg : Option Nat) : Task :=
  { name := name
    version := ctx.version
    static := true
    params := params
    deps := deps
    target := ctx.timeRange
    checker := deriveChecker deps
    engineId := engineArg.getD
      ((deps.head?.map (fun kd => kd.2.parentMeta.core.engineId)).getD ctx.engineId)
    func := func }

/-
  Concrete instances used by witnesses and counterexamples.  Timestamps in
  the calendar scenarios are minutes since 2019-12-23 00:00 in the relevant
  timezone, so day d at 16:30 is d * 1440 + 990; in the lookback scenario
  they are minutes since 2020-01-01 00:00.
-/

/-- A sample metadata with no predecessors. -/
def mdA : Metadata := .full ⟨"close_prices", "research", false, [], 0⟩ []

/-- A sample metadata with a predecessor, for the stub witness. -/
def mdB : Metadata :=
  .full ⟨"macd", "research", false, [("fast_span", "10")], 0⟩ [("prices", mdA)]

/-- Business-day 16:30 calendar over 2019-12-23 .. 2019-12-27 with no
holidays: Mon 23rd, Tue 24th, Wed 25th, Thu 26th, Fri 27th. -/
def calNoHol : Calendar := [990, 2430, 3870, 5310, 6750]

/-- The same business-day 16:30 calendar with holiday set containing
2019-12-25, removing the instant 3870. -/
def calHol25 : Calendar := [990, 2430, 5310, 6750]

/-- The target range of the completion scenario as the claim states it:
2019-12-23 00:00 up to but excluding 2019-12-27 00:00. -/
def targetDec27 : TimeRange := ⟨0, 5760⟩

/-- The target range of the completion scenario as the notebook runs it:
2019-12-23 00:00 up to but excluding 2019-12-26 00:00. -/
def targetDec26 : TimeRange := ⟨0, 4320⟩

/-- Stored extent of the scenario payload: first row 2019-12-23 16:30, last
row 2019-12-24 16:30. -/
def erDec24 : IndexRange := ⟨990, 2430⟩

/-- Child checkers of the strictest-composite scenario: calendars at minutes
900 (15:00) and 1020 (17:00) of the day. -/
def cs15and17 : List CompletionChecker := [.calendar [900], .calendar [1020]]

/-- A sample user function producing a fixed payload. -/
def fEx : List (List Row) → TimeRange → List Row := fun _ _ => [(5, 1)]

/-- A sample user function whose payload stops at timestamp 50. -/
def fShort : List (List Row) → TimeRange → List Row := fun _ _ => [(10, 1), (50, 2)]

/-- A sample context with default engine 1. -/
def ctxEx : Defaults := ⟨"research", 1, ⟨0, 10⟩⟩

/-- A dependency on mdA inheriting a calendar checker. -/
def depCal : Dependency := ⟨mdA, .calendar [990], 0, true⟩

/-- A dependency on mdA inheriting an irregular checker. -/
def depIrr : Dependency := ⟨mdA, .irregular, 0, true⟩

/-- A dependency on mdA that does not inherit its checker. -/
def depNoInherit : Dependency := ⟨mdA, .calendar [990], 0, false⟩

/-- A task that is already complete in the world w9: its calendar expects an
entry at instant 5 and the stored payload ends at 5. -/
def t9 : Task :=
  { name := "close_prices", version := "research", static := false, params := [],
    deps := [], target := ⟨0, 10⟩, checker := .calendar [5], engineId := 0,
    func := fEx }

/-- A world in which the output of t9 is stored with one row at instant 5. -/
def w9 : World := ⟨[(0, [⟨t9.output, [(5, 1)]⟩])]⟩

/-- The task of the completion-checking notebook scenario: its calendar
expects an entry at instant 100 but its user function produces data only up
to instant 50. -/
def t10 : Task :=
  { name := "close_prices", version := "research2", static := false, params := [],
    deps := [], target := ⟨0, 101⟩, checker := .calendar [100], engineId := 0,
    func := fShort }

/-- An empty world: no engine holds any dataset yet. -/
def w0 : World := ⟨[]⟩

/-- A metadata owned by engine 2, standing for the output of macd_three. -/
def mdEng2 : Metadata :=
  .full ⟨"macd", "research", false, [("fast_span", "20")], 2⟩ []

/-- A dependency whose parent dataset lives in engine 2. -/
def depEng2 : Dependency := ⟨mdEng2, .irregular, 0, true⟩

/-- A task built with the explicit engine 2 while its context default engine
is 1, the engine-branching scenario of the MACD notebook. -/
def t7 : Task :=
  ctxEx.time_series_task "macd" fEx [] [("prices", depCal)] none (some 2) none

/-
  General lemmas about the model, shared by the claim theorems below.
-/

mutual

/-- The serialisation, hence the hash, of a stub equals that of the full
metadata it was obtained from. -/
theorem mserial_toStub : (m : Metadata) → mserial (Metadata.toStub m) = mserial m
  | .full c ps => by
    simp [Metadata.toStub, mserial, pserial_stubPreds ps]
  | .stub c ps => by
    simp [Metadata.toStub, mserial, pserial_stubPreds ps]

/-- Predecessor-list serialisation is unchanged by stub conversion. -/
theorem pserial_stubPreds : (ps : List (String × Metadata)) →
    pserial (stubPreds ps) = pserial ps
  | [] => rfl
  | (k, m) :: rest => by
    simp [stubPreds, pserial, mserial_toStub m, pserial_stubPreds rest]

end

/-- Searching an association list for one key is unaffected by removing the
entries of a different key. -/
theorem find?_filter_ne (l : List (Nat × EngineState)) (a b : Nat) (hab : a ≠ b) :
    (l.filter (fun p => !(decide (p.1 = b)))).find? (fun p => decide (p.1 = a)) =
      l.find? (fun p => decide (p.1 = a)) := by
  induction l with
  | nil => rfl
  | cons p rest ih =>
    by_cases hb : p.1 = b
    · have hfilter : (p :: rest).filter (fun q => !(decide (q.1 = b))) =
          rest.filter (fun q => !(decide (q.1 = b))) := by
        simp [List.filter_cons, hb]
      have hskip : (p :: rest).find? (fun q => decide (q.1 = a)) =
          rest.find? (fun q => decide (q.1 = a)) :=
        List.find?_cons_of_neg _ (by simp; omega)
      rw [hfilter, ih, hskip]
    · have hfilter : (p :: rest).filter (fun q => !(decide (q.1 = b))) =
          p :: rest.filter (fun q => !(decide (q.1 = b))) := by
        simp [List.filter_cons, hb]
      rw [hfilter]
      by_cases ha : p.1 = a
      · rw [List.find?_cons_of_pos _ (by simp [ha]),
          List.find?_cons_of_pos _ (by simp [ha])]
      · rw [List.find?_cons_of_neg _ (by simp [ha]),
          List.find?_cons_of_neg _ (by simp [ha]), ih]

/-- Reading back the engine state just written for an engine identity. -/
theorem World.get_set_self (w : World) (eid : Nat) (st : EngineState) :
    (w.set eid st).get eid = st := by
  simp [World.get, World.set, List.find?]

/-- Writing one engine's state leaves every other engine's state unchanged. -/
theorem World.get_set_ne (w : World) (eid a : Nat) (st : EngineState)
    (h : a ≠ eid) :
    (w.set eid st).get a = w.get a := by
  simp only [World.get, World.set, List.find?]
  rw [show (decide (eid = a)) = false by simp [Ne.symm h]]
  rw [find?_filter_ne w.engines a eid h]

/-- A dataset just stored under a metadata exists under that metadata. -/
theorem dsExists_storeRows_self (st : EngineState) (m : Metadata)
    (rows : List Row) : dsExists (storeRows st m rows) m = true := by
  simp [dsExists, storeRows, List.find?]

/-- Whatever branch the run write takes, the output dataset exists
afterwards. -/
theorem dsExists_writeResult_self (st : EngineState) (m : Metadata)
    (static : Bool) (new : List Row) :
    dsExists (writeResult st m static new) m = true := by
  unfold writeResult
  split
  · exact dsExists_storeRows_self st m new
  · cases lookupRows st m with
    | none => exact dsExists_storeRows_self st m new
    | some old =>
      simp only []
      cases lastIdx old with
      | none => simp [dsExists_storeRows_self]
      | some b =>
        cases firstIdx new with
        | none => simp [dsExists_storeRows_self]
        | some a =>
          by_cases hba : b < a <;> simp [hba, dsExists_storeRows_self]

/-- When lastOnOrBefore finds nothing, no calendar instant is within the
bound. -/
theorem lastOnOrBefore_none (cal : Calendar) (bound : Timestamp)
    (h : lastOnOrBefore cal bound = none) :
    ∀ i ∈ cal, ¬ i ≤ bound := by
  induction cal with
  | nil => simp
  | cons i rest ih =>
    simp only [lastOnOrBefore] at h
    by_cases hi : i ≤ bound
    · simp only [hi, if_pos] at h
      cases hr : lastOnOrBefore rest bound <;> rw [hr] at h <;> simp at h
    · simp only [hi, if_neg, not_false_iff] at h
      intro j hj
      rcases List.mem_cons.mp hj with hj | hj
      · subst hj; exact hi
      · exact ih h j hj

/-- Soundness of lastOnOrBefore: its value is a calendar instant within the
bound and is the largest such instant. -/
theorem lastOnOrBefore_spec (cal : Calendar) (bound x : Timestamp)
    (h : lastOnOrBefore cal bound = some x) :
    x ∈ cal ∧ x ≤ bound ∧ ∀ i ∈ cal, i ≤ bound → i ≤ x := by
  induction cal generalizing x with
  | nil => simp [lastOnOrBefore] at h
  | cons i rest ih =>
    simp only [lastOnOrBefore] at h
    by_cases hi : i ≤ bound
    · simp only [hi, if_pos] at h
      cases hr : lastOnOrBefore rest bound with
      | none =>
        rw [hr] at h
        simp only [Option.some.injEq] at h
        subst h
        refine ⟨List.mem_cons_self i rest, hi, ?_⟩
        intro j hj hjb
        rcases List.mem_cons.mp hj with hj | hj
        · exact le_of_eq hj
        · exact absurd hjb (lastOnOrBefore_none rest bound hr j hj)
      | some m =>
        rw [hr] at h
        simp only [Option.some.injEq] at h
        obtain ⟨hm, hmb, hmax⟩ := ih m hr
        subst h
        refine ⟨?_, max_le hi hmb, ?_⟩
        · rcases le_total i m with hle | hle
          · simp [max_eq_right hle, List.mem_cons, hm]
          · simp [max_eq_left hle, List.mem_cons]
        · intro j hj hjb
          rcases List.mem_cons.mp hj with hj | hj
          · subst hj; exact le_max_left _ _
          · exact le_trans (hmax j hj hjb) (le_max_right _ _)
    · simp only [hi, if_neg, not_false_iff] at h
      obtain ⟨hm, hmb, hmax⟩ := ih x h
      refine ⟨List.mem_cons_of_mem i hm, hmb, ?_⟩
      intro j hj hjb
      rcases List.mem_cons.mp hj with hj | hj
      · exact absurd (hj ▸ hjb) hi
      · exact hmax j hj hjb

/-- A strictest composite is complete exactly when every child is. -/
theorem allComplete_iff (cs : List CompletionChecker) (t : TimeRange)
    (e : Option IndexRange) :
    allComplete cs t e = true ↔ ∀ c ∈ cs, is_complete c t e = true := by
  induction cs with
  | nil => simp [allComplete]
  | cons c rest ih => simp [allComplete, ih]

/-- When every child has an expected instant, the strictest composite's
expected instant is attained by a child and bounds every child from below. -/
theorem minExpected_spec (cs : List CompletionChecker) (t : TimeRange)
    (hne : cs ≠ []) (hall : ∀ c ∈ cs, (expected_last c t).isSome) :
    ∃ m, minExpected cs t = some m ∧ (∃ c ∈ cs, expected_last c t = some m) ∧
      ∀ c ∈ cs, ∀ v, expected_last c t = some v → m ≤ v := by
  induction cs with
  | nil => exact absurd rfl hne
  | cons c rest ih =>
    obtain ⟨v, hv⟩ := Option.isSome_iff_exists.mp (hall c (List.mem_cons_self c rest))
    cases rest with
    | nil =>
      refine ⟨v, ?_, ⟨c, List.mem_cons_self c [], hv⟩, ?_⟩
      · simp [minExpected, hv, omin]
      · intro c' hc' v' hv'
        rcases List.mem_cons.mp hc' with hc' | hc'
        · subst hc'
          exact le_of_eq (Option.some.inj (hv.symm.trans hv'))
        · simp at hc'
    | cons c2 rest2 =>
      obtain ⟨m, hm, ⟨ca, hca, hcav⟩, hmin⟩ :=
        ih (by simp) (fun c' hc' => hall c' (List.mem_cons_of_mem c hc'))
      refine ⟨min v m, ?_, ?_, ?_⟩
      · show omin (expected_last c t) (minExpected (c2 :: rest2) t) = some (min v m)
        rw [hv, hm]
        rfl
      · rcases le_total v m with hle | hle
        · exact ⟨c, List.mem_cons_self _ _, by rw [hv, min_eq_left hle]⟩
        · exact ⟨ca, List.mem_cons_of_mem c hca, by rw [hcav, min_eq_right hle]⟩
      · intro c' hc' v' hv'
        rcases List.mem_cons.mp hc' with hc' | hc'
        · subst hc'
          have hvv : v = v' := Option.some.inj (hv.symm.trans hv')
          subst hvv
          exact min_le_left _ _
        · exact le_trans (min_le_right _ _) (hmin c' hc' v' hv')

/-- A run of a task that is not complete writes its produced payload to the
engine owning the task. -/
theorem run_writes (t : Task) (w : World) (h : t.complete w = false) :
    ∃ newRows, (t.run w).2 =
      w.set t.engineId (writeResult (w.get t.engineId) t.output t.static newRows) := by
  simp only [Task.run, h, Bool.false_eq_true, if_false]
  exact ⟨_, rfl⟩

/-
  Claim theorems.
-/

/-- C1: for every dataset with an existing payload, an append whose smallest
new index is at most the largest existing index fails with the AppendOverlap
error and is never silently downgraded to a merge, while an append whose
smallest new index is strictly greater than the largest existing index
succeeds and the stored index remains strictly increasing. -/
theorem C1_append_overlap (st : EngineState) (m : Metadata) (old new : List Row)
    (a b : Int) (hold : lookupRows st m = some old) (hb : lastIdx old = some b)
    (ha : firstIdx new = some a) :
    (a ≤ b → engineAppend st m new = .error .appendOverlap) ∧
    (b < a → engineAppend st m new = .ok (storeRows st m (old ++ new)) ∧
      (strictIndex old → strictIndex new → strictIndex (old ++ new))) := by
  constructor
  · intro hle
    simp only [engineAppend, hold, hb, ha]
    rw [if_pos hle]
  · intro hlt
    have hnle : ¬ a ≤ b := by omega
    constructor
    · simp only [engineAppend, hold, hb, ha]
      rw [if_neg hnle]
    · intro hso hsn
      have hmap : rowIndex (old ++ new) = rowIndex old ++ rowIndex new := by
        simp [rowIndex]
      unfold strictIndex
      rw [hmap, List.chain'_append]
      refine ⟨hso, hsn, ?_⟩
      intro x hx y hy
      have hxb : x = b :=
        Option.some.inj ((Option.mem_def.mp hx).symm.trans hb)
      have hya : y = a :=
        Option.some.inj ((Option.mem_def.mp hy).symm.trans ha)
      omega

/-- Witness for C1: appending rows starting at index 5 after an existing
payload ending at index 2 succeeds and the combined index stays strictly
increasing (and the same theorem refuses the overlapping case). -/
theorem C1_witness :
    engineAppend [⟨mdA, [(1, 10), (2, 20)]⟩] mdA [(5, 7)] =
      .ok (storeRows [⟨mdA, [(1, 10), (2, 20)]⟩] mdA ([(1, 10), (2, 20)] ++ [(5, 7)])) ∧
    strictIndex ([(1, 10), (2, 20)] ++ [(5, 7)]) := by
  have h := C1_append_overlap [⟨mdA, [(1, 10), (2, 20)]⟩] mdA [(1, 10), (2, 20)]
    [(5, 7)] 5 2 (by decide) (by decide) (by decide)
  obtain ⟨h1, h2⟩ := h.2 (by decide)
  exact ⟨h1, h2 (by simp [strictIndex, rowIndex, List.chain'_cons])
    (by simp [strictIndex, rowIndex])⟩

/-- C2 counterexample: under the claim's own reading of the completion rule,
the scenario it states fails.  Timestamps are minutes since 2019-12-23
00:00; the calendar calHol25 holds the business-day 16:30 instants of
2019-12-23 .. 2019-12-27 with 2019-12-25 removed as a holiday, the target is
2019-12-23 up to 2019-12-27 exclusive, and the stored payload ends at
2019-12-24 16:30.  The claim asserts the payload is complete, but 2019-12-26
is a business day before the target end, so the checker reports false. -/
theorem C2_counterexample :
    is_complete (.calendar calHol25) targetDec27 (some erDec24) = false := by
  decide

/-- C2 amended: expected_last of a CalendarChecker is the largest calendar
instant at most the target end, and is_complete holds iff the existing last
index reaches it; in particular, with the notebook's target 2019-12-23 up to
2019-12-26 exclusive, the no-holiday business calendar leaves a payload
ending 2019-12-24 16:30 incomplete, while the calendar with holiday set
containing 2019-12-25 makes the same stored payload complete. -/
theorem C2_calendar_checker (cal : Calendar) (t : TimeRange) (er : IndexRange)
    (x : Timestamp) (h : expected_last (.calendar cal) t = some x) :
    (x ∈ cal ∧ x ≤ t.end_ ∧ ∀ i ∈ cal, i ≤ t.end_ → i ≤ x) ∧
    (is_complete (.calendar cal) t (some er) = true ↔ x ≤ er.last) ∧
    (is_complete (.calendar calNoHol) targetDec26 (some erDec24) = false ∧
     is_complete (.calendar calHol25) targetDec26 (some erDec24) = true) := by
  have hx : lastOnOrBefore cal t.end_ = some x := h
  refine ⟨lastOnOrBefore_spec cal t.end_ x hx, ?_, by decide, by decide⟩
  simp [is_complete, hx]

/-- Witness for C2: the amended theorem applied to the holiday calendar,
whose expected last instant for the notebook target is 2019-12-24 16:30. -/
theorem C2_witness :
    ((2430 : Int) ∈ calHol25 ∧ (2430 : Int) ≤ targetDec26.end_ ∧
      ∀ i ∈ calHol25, i ≤ targetDec26.end_ → i ≤ (2430 : Int)) ∧
    (is_complete (.calendar calHol25) targetDec26 (some erDec24) = true ↔
      (2430 : Int) ≤ erDec24.last) ∧
    (is_complete (.calendar calNoHol) targetDec26 (some erDec24) = false ∧
     is_complete (.calendar calHol25) targetDec26 (some erDec24) = true) :=
  C2_calendar_checker calHol25 targetDec26 erDec24 2430 (by decide)

/-- C3: a task built without an explicit completion checker derives it from
its dependencies: IrregularChecker when no dependency inherits, the single
inheriting parent's checker when exactly one does, and a strictest
CompositeChecker over the inherited checkers when more than one does. -/
theorem C3_derived_checker (ctx : Defaults) (name : String)
    (func : List (List Row) → TimeRange → List Row)
    (params : List (String × String)) (deps : List (String × Dependency))
    (engineArg : Option Nat) (targetArg : Option TimeRange) :
    (inheritedCheckers deps = [] →
      (ctx.time_series_task name func params deps none engineArg targetArg).checker =
        .irregular) ∧
    (∀ c, inheritedCheckers deps = [c] →
      (ctx.time_series_task name func params deps none engineArg targetArg).checker = c) ∧
    (∀ c1 c2 rest, inheritedCheckers deps = c1 :: c2 :: rest →
      (ctx.time_series_task name func params deps none engineArg targetArg).checker =
        .composite .strictest (c1 :: c2 :: rest)) := by
  refine ⟨?_, ?_, ?_⟩
  · intro h
    show deriveChecker deps = _
    unfold deriveChecker
    rw [h]
  · intro c h
    show deriveChecker deps = _
    unfold deriveChecker
    rw [h]
  · intro c1 c2 rest h
    show deriveChecker deps = _
    unfold deriveChecker
    rw [h]

/-- Witness for C3: a task with a single inheriting dependency takes that
parent's calendar checker directly. -/
theorem C3_witness :
    (ctxEx.time_series_task "macd" fEx [] [("prices", depCal)] none none none).checker =
      .calendar [990] :=
  (C3_derived_checker ctxEx "macd" fEx [] [("prices", depCal)] none none).2.1
    (.calendar [990]) (by rfl)

/-- C4: a strictest CompositeChecker over a non-empty list of children is
complete exactly when every child is complete, and when every child expects
an instant its expected_last is the minimum of the children's: attained by
one child and bounding all of them from below. -/
theorem C4_composite_strictest (cs : List CompletionChecker) (t : TimeRange)
    (e : Option IndexRange) (hne : cs ≠ []) :
    (is_complete (.composite .strictest cs) t e = true ↔
      ∀ c ∈ cs, is_complete c t e = true) ∧
    ((∀ c ∈ cs, (expected_last c t).isSome) →
      ∃ m, expected_last (.composite .strictest cs) t = some m ∧
        (∃ c ∈ cs, expected_last c t = some m) ∧
        ∀ c ∈ cs, ∀ v, expected_last c t = some v → m ≤ v) := by
  constructor
  · exact allComplete_iff cs t e
  · intro hall
    exact minExpected_spec cs t hne hall

/-- Witness for C4: the two-parent scenario with calendars at minutes 900
(15:00) and 1020 (17:00) and target end 1080 (18:00). -/
theorem C4_witness :
    (is_complete (.composite .strictest cs15and17) ⟨0, 1080⟩ (some ⟨900, 1020⟩) = true ↔
      ∀ c ∈ cs15and17, is_complete c ⟨0, 1080⟩ (some ⟨900, 1020⟩) = true) ∧
    ((∀ c ∈ cs15and17, (expected_last c ⟨0, 1080⟩).isSome) →
      ∃ m, expected_last (.composite .strictest cs15and17) ⟨0, 1080⟩ = some m ∧
        (∃ c ∈ cs15and17, expected_last c ⟨0, 1080⟩ = some m) ∧
        ∀ c ∈ cs15and17, ∀ v, expected_last c ⟨0, 1080⟩ = some v → m ≤ v) :=
  C4_composite_strictest cs15and17 ⟨0, 1080⟩ (some ⟨900, 1020⟩) (by simp [cs15and17])

/-- C5: the fetch range of a dependency for a child target is the target
extended backward by the lookback; in particular a 30-day lookback (43200
minutes) on the target 2020-02-01 up to 2020-02-05 exclusive (minutes 44640
to 50400 since 2020-01-01) yields the range from 2020-01-02 (minute 1440) to
2020-02-05. -/
theorem C5_fetch_range :
    (∀ (d : Dependency) (ct : TimeRange),
      fetch_range d ct = ⟨ct.start - d.lookback, ct.end_⟩) ∧
    fetch_range ⟨mdA, .irregular, 43200, true⟩ ⟨44640, 50400⟩ = ⟨1440, 50400⟩ := by
  exact ⟨fun d ct => rfl, by decide⟩

/-- C6: the stub an engine returns for a metadata has the same content hash
as the metadata, even though its predecessors are only stubs. -/
theorem C6_stub_hash (st : EngineState) (m s : Metadata)
    (h : getStub st m = some s) : mhash s = mhash m := by
  unfold getStub at h
  cases hf : st.find? (fun d => decide (mhash d.meta = mhash m)) with
  | none =>
    rw [hf] at h
    simp at h
  | some d =>
    rw [hf] at h
    simp only [Option.map_some', Option.some.injEq] at h
    have hd : mhash d.meta = mhash m := by
      have hp := List.find?_some hf
      simpa using hp
    rw [← h]
    unfold mhash
    rw [mserial_toStub d.meta]
    exact hd

/-- Witness for C6: the stub of a metadata with one predecessor, stored in a
one-dataset engine, hashes like its full form. -/
theorem C6_witness : mhash (Metadata.toStub mdB) = mhash mdB :=
  C6_stub_hash [⟨mdB, []⟩] mdB (Metadata.toStub mdB) (by rfl)

/-- C7: a task constructed with an explicit persistence engine E2, with its
parent stored in a different engine E1, carries engine_id E2 in its output
metadata, and after run the output dataset exists in E2 and does not exist
in E1 (assuming the task was not already complete and its output was not
already in E1). -/
theorem C7_engine_branching (ctx : Defaults) (name : String)
    (func : List (List Row) → TimeRange → List Row)
    (params : List (String × String)) (deps : List (String × Dependency))
    (checkerArg : Option CompletionChecker) (targetArg : Option TimeRange)
    (e1 e2 : Nat) (w : World) (t : Task)
    (ht : t = ctx.time_series_task name func params deps checkerArg (some e2) targetArg)
    (hne : e1 ≠ e2) (hnc : t.complete w = false)
    (hno : dsExists (w.get e1) t.output = false) :
    t.output.core.engineId = e2 ∧
    dsExists (((t.run w).2).get e2) t.output = true ∧
    dsExists (((t.run w).2).get e1) t.output = false := by
  have heid : t.engineId = e2 := by rw [ht]; rfl
  obtain ⟨newRows, hrun⟩ := run_writes t w hnc
  refine ⟨by rw [ht]; rfl, ?_, ?_⟩
  · rw [hrun, heid, World.get_set_self]
    exact dsExists_writeResult_self _ _ _ _
  · rw [hrun, heid, World.get_set_ne _ _ _ _ hne]
    exact hno

/-- Witness for C7: the notebook scenario, a macd task bound to engine 2
while the context default (and the parent) is engine 1, run on an empty
world. -/
theorem C7_witness :
    t7.output.core.engineId = 2 ∧
    dsExists (((t7.run w0).2).get 2) t7.output = true ∧
    dsExists (((t7.run w0).2).get 1) t7.output = false :=
  C7_engine_branching ctxEx "macd" fEx [] [("prices", depCal)] none none 1 2 w0 t7
    rfl (by decide) (by rfl) (by rfl)

/-- C8 counterexample: the describe_three scenario of the MACD notebook.  A
static task constructed without an explicit persistence engine but with a
dependency stored in engine 2 binds engine 2 into its output metadata, not
the default engine 1 of the context that created it, refuting the claim
that every such task is bound to the context default. -/
theorem C8_counterexample :
    (ctxEx.static_task "macd.describe" fEx [] [("data", depEng2)] none).output.core.engineId
        = 2 ∧
    ctxEx.engineId = 1 ∧
    (ctxEx.static_task "macd.describe" fEx [] [("data", depEng2)] none).output.core.engineId
        ≠ ctxEx.engineId :=
  ⟨rfl, rfl, by decide⟩

/-- C8 amended: a time-series task constructed without an explicit
persistence engine binds the context's default engine into its output
metadata; a static task without an explicit engine inherits the engine of
its first dependency, and only a static task with no dependencies falls back
to the context default. -/
theorem C8_default_engine (ctx : Defaults) (name : String)
    (func : List (List Row) → TimeRange → List Row)
    (params : List (String × String)) (deps : List (String × Dependency))
    (checkerArg : Option CompletionChecker) (targetArg : Option TimeRange)
    (k : String) (d : Dependency) (rest : List (String × Dependency)) :
    ((ctx.time_series_task name func params deps checkerArg none targetArg).output).core.engineId
        = ctx.engineId ∧
    ((ctx.static_task name func params [] none).output).core.engineId = ctx.engineId ∧
    ((ctx.static_task name func params ((k, d) :: rest) none).output).core.engineId
        = d.parentMeta.core.engineId :=
  ⟨rfl, rfl, rfl⟩

/-- C9: running an already-complete task returns immediately with no engine
write: the run reports alreadyComplete, the world is unchanged, and in
particular the persisted payload and the stored range of the output are
unchanged. -/
theorem C9_run_noop (t : Task) (w : World) (h : t.complete w = true) :
    t.run w = (.alreadyComplete, w) ∧
    lookupRows (((t.run w).2).get t.engineId) t.output =
      lookupRows (w.get t.engineId) t.output ∧
    storedRange (((t.run w).2).get t.engineId) t.output =
      storedRange (w.get t.engineId) t.output := by
  have hr : t.run w = (.alreadyComplete, w) := by
    simp [Task.run, h]
  exact ⟨hr, by rw [hr], by rw [hr]⟩

/-- Witness for C9: a task whose calendar expects instant 5 and whose stored
payload ends at 5 is complete, and running it leaves the world untouched. -/
theorem C9_witness :
    Task.complete t9 w9 = true ∧ t9.run w9 = (.alreadyComplete, w9) := by
  have h : Task.complete t9 w9 = true := by rfl
  exact ⟨h, (C9_run_noop t9 w9 h).1⟩

/-- C10: the completion-checking notebook scenario: the task's calendar
expects a row at instant 100 but its function produces rows only up to 50;
run still writes the payload to the engine and the write is not rolled back
when the completion check fails, so the run reports incomplete, read returns
the written rows, and complete is still false. -/
theorem C10_write_survives_incomplete :
    (t10.run w0).1 = .incomplete ∧
    Task.read t10 (t10.run w0).2 = some [(10, 1), (50, 2)] ∧
    Task.complete t10 (t10.run w0).2 = false :=
  ⟨rfl, rfl, rfl⟩

end Aika
